import Mathlib

/-!
Verification of the TPE (Tree-structured Parzen Estimator) engine of
`src/hyperopt/tpe.py` against its natural-language specification.

The Python source is shallowly embedded:

* the pyll expression graphs built by the adaptive-Parzen sampler adapters
  (`ap_uniform_sampler`, `ap_loguniform_sampler`, ...) become a small
  inductive AST `PNode`, since those adapters only assemble symbolic nodes;
* real-valued numpy computations become functions over `ℝ` (or `ℚ` where the
  computation is exact), with numpy's `np.maximum` / `np.clip` / `np.ceil`
  translated to `max` / `min`-`max` / `Int.ceil`.  In this real-number model
  a division `0 / 0` evaluates to `0` where IEEE arithmetic produces `NaN`;
  the theorems concerned spell this out;
* the unbounded `while` rejection loop of `GMM1` is embedded as a function
  of the stream of proposed draws, indexed by the number of proposals
  consumed, since the source loop has no other state;
* the trial-deduplication and refinement bookkeeping of
  `TreeParzenEstimator` become folds over lists of trial records.
-/

namespace Tpe

/-! ## Symbolic pyll graphs built by the distribution adapters

`src/hyperopt/tpe.py` lines 355-434: each adapter assembles a symbolic pyll
graph out of `scope.*` calls.  `PNode` mirrors the graph constructors the
log-family and uniform-family adapters use; `obsN` is the observation-vector
node the posterior builder passes as first argument (`obs`). -/

inductive PNode where
  | obsN : PNode
  | logN : PNode → PNode
  | adaptiveParzenNormalN : PNode → ℚ → ℚ → ℚ → PNode
  | GMM1N : PNode → Option ℚ → Option ℚ → Option ℚ → PNode
  | LGMM1N : PNode → Option ℚ → Option ℚ → Option ℚ → PNode
deriving DecidableEq

/-- `ap_uniform_sampler` (tpe.py lines 355-362): prior mean `(high+low)/2`,
prior sigma `high-low`, Parzen estimator on the raw `obs` node, truncated
`GMM1` with bounds `(low, high)` and no quantization. -/
def ap_uniform_sampler (prior_weight low high : ℚ) : PNode :=
  PNode.GMM1N
    (PNode.adaptiveParzenNormalN PNode.obsN prior_weight ((high + low) / 2) (high - low))
    (some low) (some high) none

/-- `ap_loguniform_sampler` (tpe.py lines 375-383): the Parzen estimator is
applied to `scope.log(obs)`, and sampling goes through `LGMM1`. -/
def ap_loguniform_sampler (prior_weight low high : ℚ) : PNode :=
  PNode.LGMM1N
    (PNode.adaptiveParzenNormalN (PNode.logN PNode.obsN) prior_weight
      ((high + low) / 2) (high - low))
    (some low) (some high) none

/-- `ap_qloguniform_sampler` (tpe.py lines 386-393): the Parzen estimator is
applied to the raw `obs` node (not `scope.log(obs)`), then `LGMM1` with
step `q`. -/
def ap_qloguniform_sampler (prior_weight low high q : ℚ) : PNode :=
  PNode.LGMM1N
    (PNode.adaptiveParzenNormalN PNode.obsN prior_weight
      ((high + low) / 2) (high - low))
    (some low) (some high) (some q)

/-- `ap_loglognormal_sampler` for the lognormal family (tpe.py lines 410-415):
Parzen estimator on `scope.log(obs)`, untruncated `LGMM1`. -/
def ap_loglognormal_sampler (prior_weight mu sigma : ℚ) : PNode :=
  PNode.LGMM1N
    (PNode.adaptiveParzenNormalN (PNode.logN PNode.obsN) prior_weight mu sigma)
    none none none

/-- `ap_qlognormal_sampler` (tpe.py lines 418-423): Parzen estimator on
`scope.log(obs)`, `LGMM1` with step `q`. -/
def ap_qlognormal_sampler (prior_weight mu sigma q : ℚ) : PNode :=
  PNode.LGMM1N
    (PNode.adaptiveParzenNormalN (PNode.logN PNode.obsN) prior_weight mu sigma)
    none none (some q)

/-- The node an adapter's graph passes to `adaptive_parzen_normal` as the
observation argument (the first positional argument of the
`scope.adaptive_parzen_normal` call inside the adapter). -/
def apnObsArg : PNode → Option PNode
  | PNode.GMM1N (PNode.adaptiveParzenNormalN o _ _ _) _ _ _ => some o
  | PNode.LGMM1N (PNode.adaptiveParzenNormalN o _ _ _) _ _ _ => some o
  | _ => none

/-! ## The truncated rejection-sampling loop of `GMM1`

tpe.py lines 75-89: when `low`/`high` are given, `GMM1` repeats
`draw = rng.normal(...)`; if `q is not None` then `draw = ceil(draw/q)*q`;
the draw is appended when `low <= draw < high`.  The `while` loop runs until
`len(samples) == n_samples` and carries no attempt counter and no error path.
The loop is embedded as a function of the stream `draws` of proposed raw
draws: `gmm1RejectionSamples low high q draws t` is the list of accepted
samples after the loop has consumed `t` proposals. -/

/-- Quantization applied to a truncated `GMM1` draw (tpe.py lines 86-87):
`np.ceil(draw / q) * q` when `q` is given, the raw draw otherwise. -/
def gmm1Quant (q : Option ℚ) (d : ℚ) : ℚ :=
  match q with
  | none => d
  | some qq => (⌈d / qq⌉ : ℤ) * qq

/-- The acceptance test of the truncated rejection loop (tpe.py line 88):
`low <= draw < high`, on the quantized draw. -/
def gmm1TruncAccept (low high : ℚ) (q : Option ℚ) (d : ℚ) : Bool :=
  decide (low ≤ gmm1Quant q d ∧ gmm1Quant q d < high)

/-- The samples the `while` loop of `GMM1` (tpe.py lines 83-89) has collected
after consuming `t` proposals from the draw stream. -/
def gmm1RejectionSamples (low high : ℚ) (q : Option ℚ) (draws : ℕ → ℚ) : ℕ → List ℚ
  | 0 => []
  | t + 1 =>
      let prev := gmm1RejectionSamples low high q draws t
      if gmm1TruncAccept low high q (draws t) then
        prev ++ [gmm1Quant q (draws t)]
      else prev

/-! ## The adaptive Parzen estimator

`adaptive_parzen_normal` (tpe.py lines 267-345) over the reals.  numpy
arrays become lists of `ℝ`; `np.clip` becomes `npClip`; the `argsort` /
fancy-indexing un-sort of the `n >= 2` branch becomes `apnOrder` /
`unsortBy`.  The tie order of `np.argsort` (an unstable quicksort) is
unspecified, so the embedding uses a stable insertion sort on positions;
no theorem below depends on tie order.  Real division by zero evaluates to
`0` here where numpy produces `NaN`/`inf`; the theorems about the `n = 0`
weight degeneracy account for this. -/

noncomputable section

/-- `EPS = 1e-12` (tpe.py line 28). -/
def EPS : ℝ := 1 / 10 ^ 12

/-- `np.clip(x, lo, hi)`: `np.minimum(np.maximum(x, lo), hi)`. -/
def npClip (x lo hi : ℝ) : ℝ := min (max x lo) hi

/-- The sort permutation `order = np.argsort(mus)` (tpe.py line 296) as the
list of positions of `v` in ascending value order. -/
def apnOrder (v : List ℝ) : List ℕ :=
  (List.range v.length).insertionSort (fun i j => v.getD i 0 ≤ v.getD j 0)

/-- The numpy fancy-indexed un-sort `a[order] = a.copy()` (tpe.py lines
313-314): position `order[k]` of the result receives element `k` of `s`,
so position `i` receives element `indexOf i order` of `s`. -/
def unsortBy (order : List ℕ) (s : List ℝ) : List ℝ :=
  (List.range s.length).map (fun i => s.getD (order.indexOf i) 0)

/-- Entry `i` of the sigma vector computed from the sorted observation list
`xs` of length `n ≥ 2` (tpe.py lines 298-310): interior entries are
`max(x_i - x_(i-1), x_(i+1) - x_i)`, the end entries are `x_2 - x_0` and
`x_(n-1) - x_(n-3)` when `n > 2`, else `x_1 - x_0` twice. -/
def apnSigmaAt (xs : List ℝ) (n i : ℕ) : ℝ :=
  let g := fun j => xs.getD j 0
  if i = 0 then (if 2 < n then g 2 - g 0 else g 1 - g 0)
  else if i = n - 1 then (if 2 < n then g (n - 1) - g (n - 3) else g (n - 1) - g (n - 2))
  else max (g i - g (i - 1)) (g (i + 1) - g i)

/-- The `(mus, sigma)` pair before clipping and weighting: the three
branches on `len(mus)` of tpe.py lines 289-323, the prior appended last. -/
def apnMusSigma : List ℝ → ℝ → ℝ → List ℝ × List ℝ
  | [], prior_mu, prior_sigma => ([prior_mu], [prior_sigma])
  | [x], prior_mu, prior_sigma => ([x, prior_mu], [prior_sigma * (1 / 2), prior_sigma])
  | x :: y :: t, prior_mu, prior_sigma =>
      let mus := x :: y :: t
      let n := mus.length
      let order := apnOrder mus
      let sorted := order.map (fun i => mus.getD i 0)
      let sigmaSorted := (List.range n).map (fun i => apnSigmaAt sorted n i)
      (unsortBy order sorted ++ [prior_mu], unsortBy order sigmaSorted ++ [prior_sigma])

/-- The unnormalized weight vector of tpe.py lines 332-334 for `m = len(mus)`
components: `weights = 1 + arange(m)`, then `weights[-1] -= 1` and
`weights[-1] *= prior_weight`.  (`m ≥ 1` always, since the prior component
is always present.) -/
def apnRawWeights (m : ℕ) (prior_weight : ℝ) : List ℝ :=
  ((List.range (m - 1)).map (fun (i : ℕ) => (i : ℝ) + 1)) ++ [((m : ℝ) - 1) * prior_weight]

/-- `adaptive_parzen_normal(mus, prior_weight, prior_mu, prior_sigma)`
(tpe.py lines 267-345): branch on `len(mus)`, clip every sigma into
`[prior_sigma / sqrt(1 + len(mus)), prior_sigma]` (with `len(mus)` counted
after the prior is appended), and normalize the ramp weights by their sum. -/
def adaptive_parzen_normal (mus : List ℝ) (prior_weight prior_mu prior_sigma : ℝ) :
    List ℝ × List ℝ × List ℝ :=
  let p := apnMusSigma mus prior_mu prior_sigma
  let m := p.1.length
  let minsigma := prior_sigma / Real.sqrt (1 + (m : ℝ))
  let raw := apnRawWeights m prior_weight
  (raw.map (fun w => w / raw.sum), p.1, p.2.map (fun s => npClip s minsigma prior_sigma))

end

/-! ### Structural lemmas for the Parzen estimator -/

lemma length_unsortBy (order : List ℕ) (s : List ℝ) : (unsortBy order s).length = s.length := by
  simp [unsortBy]

lemma apnMusSigma_fst_length (mus : List ℝ) (pmu ps : ℝ) :
    (apnMusSigma mus pmu ps).1.length = mus.length + 1 := by
  match mus with
  | [] => rfl
  | [x] => rfl
  | x :: y :: t =>
      simp only [apnMusSigma, List.length_append, length_unsortBy, List.length_map,
        List.length_cons, List.length_singleton]
      simp [apnOrder, List.length_insertionSort]

lemma pmu_mem_apnMusSigma (mus : List ℝ) (pmu ps : ℝ) : pmu ∈ (apnMusSigma mus pmu ps).1 := by
  match mus with
  | [] => simp [apnMusSigma]
  | [x] => simp [apnMusSigma]
  | x :: y :: t => simp [apnMusSigma]

lemma list_sum_map_div (l : List ℝ) (c : ℝ) : (l.map (fun x => x / c)).sum = l.sum / c := by
  induction l with
  | nil => simp
  | cons a t ih => simp [ih, add_div]

lemma apnRawWeights_sum_pos (m : ℕ) (hm : 2 ≤ m) (pw : ℝ) (hpw : 0 ≤ pw) :
    0 < (apnRawWeights m pw).sum := by
  have h1 : 0 < ((List.range (m - 1)).map (fun (i : ℕ) => (i : ℝ) + 1)).sum := by
    apply List.sum_pos
    · intro x hx
      obtain ⟨j, _, rfl⟩ := List.mem_map.mp hx
      show (0 : ℝ) < (j : ℝ) + 1
      positivity
    · have hne : m - 1 ≠ 0 := by omega
      simp only [ne_eq, List.map_eq_nil_iff, List.range_eq_nil]
      omega
  have h2 : 0 ≤ ((m : ℝ) - 1) * pw := by
    apply mul_nonneg _ hpw
    have : (2 : ℝ) ≤ (m : ℝ) := by exact_mod_cast hm
    linarith
  simp only [apnRawWeights, List.sum_append, List.sum_cons, List.sum_nil, add_zero]
  linarith

lemma npClip_mem (x lo hi : ℝ) (h : lo ≤ hi) : lo ≤ npClip x lo hi ∧ npClip x lo hi ≤ hi := by
  constructor
  · exact le_min (le_max_right x lo) h
  · exact min_le_right _ _

/-! ### Claim theorems: adapters, rejection loop, Parzen estimator -/

/-- C1: the source of `ap_qloguniform_sampler` (tpe.py line 390) passes the
raw `obs` node to `adaptive_parzen_normal`, not `scope.log(obs)`; every
other log-family adapter (`loguniform` line 380, `lognormal` line 413,
`qlognormal` line 421) passes `scope.log(obs)`.  So the claim that the
`qloguniform` adapter passes the logarithm of the observations is false of
the code: its Parzen estimator sees natural-scale observations. -/
theorem ap_qloguniform_passes_raw_obs (pw low high q : ℚ) :
    apnObsArg (ap_qloguniform_sampler pw low high q) = some PNode.obsN
    ∧ apnObsArg (ap_qloguniform_sampler pw low high q) ≠ some (PNode.logN PNode.obsN)
    ∧ apnObsArg (ap_loguniform_sampler pw low high) = some (PNode.logN PNode.obsN)
    ∧ apnObsArg (ap_loglognormal_sampler pw low high) = some (PNode.logN PNode.obsN)
    ∧ apnObsArg (ap_qlognormal_sampler pw low high q) = some (PNode.logN PNode.obsN) := by
  refine ⟨rfl, ?_, rfl, rfl, rfl⟩
  simp [ap_qloguniform_sampler, apnObsArg]

lemma gmm1_accept_false_on_gap (d : ℚ) :
    gmm1TruncAccept (1 / 10) (3 / 10) (some 1) d = false := by
  simp only [gmm1TruncAccept, gmm1Quant, decide_eq_false_iff_not]
  rintro ⟨h1, h2⟩
  rw [div_one, mul_one] at h1 h2
  have h0 : (0 : ℤ) < ⌈d⌉ := by
    have : (0 : ℚ) < (⌈d⌉ : ℚ) := lt_of_lt_of_le (by norm_num) h1
    exact_mod_cast this
  have h3 : (1 : ℚ) ≤ (⌈d⌉ : ℚ) := by exact_mod_cast h0
  linarith

/-- C2: the truncated rejection loop of `GMM1` (tpe.py lines 83-89) carries
no attempt counter and no `Degenerate` error path: it only ever exits by
collecting `n_samples` accepted draws.  With `low = 0.1`, `high = 0.3` and
`q = 1` every quantized draw is an integer, so no draw is ever accepted and
the loop never terminates, whatever the random stream produces: after any
number `t` of proposals the collected sample list is still empty. -/
theorem gmm1_rejection_loop_starves (draws : ℕ → ℚ) (t : ℕ) :
    gmm1RejectionSamples (1 / 10) (3 / 10) (some 1) draws t = [] := by
  induction t with
  | zero => rfl
  | succ t ih =>
      simp only [gmm1RejectionSamples, gmm1_accept_false_on_gap, ih]
      simp

/-- C3: for an empty observation vector `adaptive_parzen_normal`
(tpe.py lines 289-291 and 332-337) builds the single prior component with
unnormalized weight `(1 - 1) * prior_weight = 0`, whose sum is `0`; the
normalization then divides `0` by `0`, which numpy evaluates to `NaN` (and
the real-number model here to `0`).  The returned weight vector is therefore
not the claimed `[1]`: the means and sigmas are `[prior_mu]` and
`[prior_sigma]` as claimed, but the weights are degenerate. -/
theorem apn_empty_obs_weights_degenerate :
    (apnRawWeights 1 (3 / 10)).sum = 0
    ∧ (adaptive_parzen_normal [] (3 / 10) 0 1).1 = [0]
    ∧ (adaptive_parzen_normal [] (3 / 10) 0 1).1 ≠ [1]
    ∧ (adaptive_parzen_normal [] (3 / 10) 0 1).2.1 = [0]
    ∧ (adaptive_parzen_normal [] (3 / 10) 0 1).2.2 = [1] := by
  have hraw : apnRawWeights 1 (3 / 10) = [0] := by
    simp [apnRawWeights]
  have hclip : npClip 1 (1 / Real.sqrt (1 + (1 : ℕ))) 1 = 1 := by
    unfold npClip
    rw [min_eq_right (le_max_left 1 _)]
  refine ⟨by simp [hraw], ?_, ?_, ?_, ?_⟩
  · simp [adaptive_parzen_normal, apnMusSigma, hraw]
  · simp [adaptive_parzen_normal, apnMusSigma, hraw]
  · simp [adaptive_parzen_normal, apnMusSigma]
  · simp only [adaptive_parzen_normal, apnMusSigma, List.length_singleton, List.map]
    exact congrArg (fun z => [z]) hclip

/-- C4 (amended): for a single observation the code (tpe.py lines 292-294,
325-337) returns weights `{1/(1+pw), pw/(1+pw)}` (not `{1/2, 1/2}`, unless
`prior_weight = 1`), means `{obs[0], prior_mu}`, and sigmas
`{prior_sigma/sqrt 3, prior_sigma}`: the raw sigma `prior_sigma/2` of line
294 is raised to the clamp floor `prior_sigma/sqrt(1+2)` of lines 327-330. -/
theorem apn_single_obs_characterization (x pw pmu ps : ℝ) (hps : 0 < ps) :
    adaptive_parzen_normal [x] pw pmu ps
      = ([1 / (1 + pw), pw / (1 + pw)], [x, pmu], [ps / Real.sqrt 3, ps]) := by
  have h13 : (1 : ℝ) ≤ Real.sqrt 3 := Real.one_le_sqrt.mpr (by norm_num)
  have h3pos : (0 : ℝ) < Real.sqrt 3 := lt_of_lt_of_le one_pos h13
  have hs32 : Real.sqrt 3 ≤ 2 := by
    have h4 : Real.sqrt 4 = 2 := by
      rw [show (4 : ℝ) = 2 ^ 2 by norm_num, Real.sqrt_sq (by norm_num : (0 : ℝ) ≤ 2)]
    calc Real.sqrt 3 ≤ Real.sqrt 4 := Real.sqrt_le_sqrt (by norm_num)
      _ = 2 := h4
  have hclip1 : npClip (ps * (1 / 2)) (ps / Real.sqrt 3) ps = ps / Real.sqrt 3 := by
    unfold npClip
    have hle : ps * (1 / 2) ≤ ps / Real.sqrt 3 := by
      rw [div_eq_mul_inv]
      apply mul_le_mul_of_nonneg_left _ hps.le
      have h2 : (2 : ℝ)⁻¹ ≤ (Real.sqrt 3)⁻¹ := inv_anti₀ h3pos hs32
      calc (1 : ℝ) / 2 = 2⁻¹ := one_div 2
        _ ≤ (Real.sqrt 3)⁻¹ := h2
    rw [max_eq_right hle, min_eq_left (div_le_self hps.le h13)]
  have hclip2 : npClip ps (ps / Real.sqrt 3) ps = ps := by
    unfold npClip
    rw [min_eq_right (le_max_left ps _)]
  simp only [adaptive_parzen_normal, apnMusSigma, apnRawWeights, List.length_cons,
    List.length_nil, List.length_singleton]
  norm_num [List.range_succ]
  exact ⟨hclip1, hclip2⟩

/-- C4 counterexample: at `obs = [0]`, `prior_weight = 2`, `prior_mu = 0`,
`prior_sigma = 1` the code returns weights `[1/3, 2/3]`, so the claimed
output `({1/2, 1/2}, {0, 0}, {1/2, 1})` is wrong (the sigma head `1/sqrt 3`
differs from the claimed `1/2` as well). -/
theorem apn_single_obs_claim_false :
    ¬ ((adaptive_parzen_normal [0] 2 0 1).1 = [1 / 2, 1 / 2]
       ∧ (adaptive_parzen_normal [0] 2 0 1).2.1 = [0, 0]
       ∧ (adaptive_parzen_normal [0] 2 0 1).2.2 = [1 / 2, 1]) := by
  rintro ⟨h, -, -⟩
  have hw : (adaptive_parzen_normal [0] 2 0 1).1 = [1 / 3, 2 / 3] := by
    simp only [adaptive_parzen_normal, apnMusSigma, apnRawWeights, List.length_cons,
      List.length_nil, List.length_singleton]
    norm_num [List.range_succ]
  rw [hw] at h
  have h0 : (1 : ℝ) / 3 = 1 / 2 := (List.cons.injEq _ _ _ _).mp h |>.1
  norm_num at h0

/-- Witness for C4 at `x = 0`, `prior_weight = 1`, `prior_mu = 0`,
`prior_sigma = 1`. -/
theorem apn_single_obs_characterization_witness :
    (0 : ℝ) < 1
    ∧ adaptive_parzen_normal [0] 1 0 1
        = ([1 / (1 + 1), 1 / (1 + 1)], [0, 0], [1 / Real.sqrt 3, 1]) :=
  ⟨one_pos, apn_single_obs_characterization 0 1 0 1 one_pos⟩

/-- C5 (amended): for every nonempty observation vector (the empty case
degenerates, see the counterexample), nonnegative prior weight and positive
prior sigma, the output of `adaptive_parzen_normal` has weights summing to 1
(hence within `1e-12` of 1), every sigma in
`[prior_sigma / sqrt(n+2), prior_sigma]`, and `prior_mu` among the means
(tpe.py lines 289-345). -/
theorem apn_invariants_nonempty (obs : List ℝ) (pw pmu ps : ℝ)
    (hobs : obs ≠ []) (hpw : 0 ≤ pw) (hps : 0 < ps) :
    |(adaptive_parzen_normal obs pw pmu ps).1.sum - 1| ≤ 1 / 10 ^ 12
    ∧ (∀ s ∈ (adaptive_parzen_normal obs pw pmu ps).2.2,
        ps / Real.sqrt ((obs.length : ℝ) + 2) ≤ s ∧ s ≤ ps)
    ∧ pmu ∈ (adaptive_parzen_normal obs pw pmu ps).2.1 := by
  have hm : (apnMusSigma obs pmu ps).1.length = obs.length + 1 :=
    apnMusSigma_fst_length obs pmu ps
  have hm2 : 2 ≤ (apnMusSigma obs pmu ps).1.length := by
    rw [hm]
    have : obs.length ≠ 0 := by simpa [List.length_eq_zero] using hobs
    omega
  have hsumpos := apnRawWeights_sum_pos _ hm2 pw hpw
  have hcast : (1 : ℝ) + (((apnMusSigma obs pmu ps).1.length : ℕ) : ℝ)
      = (obs.length : ℝ) + 2 := by
    rw [hm]; push_cast; ring
  have hA : (adaptive_parzen_normal obs pw pmu ps).1
      = (apnRawWeights (apnMusSigma obs pmu ps).1.length pw).map
          (fun w => w / (apnRawWeights (apnMusSigma obs pmu ps).1.length pw).sum) := rfl
  have hC : (adaptive_parzen_normal obs pw pmu ps).2.2
      = (apnMusSigma obs pmu ps).2.map
          (fun s => npClip s
            (ps / Real.sqrt (1 + ((apnMusSigma obs pmu ps).1.length : ℝ))) ps) := rfl
  refine ⟨?_, ?_, ?_⟩
  · rw [hA, list_sum_map_div, div_self (ne_of_gt hsumpos)]
    norm_num
  · rw [hC]
    intro s hs
    obtain ⟨z, _, rfl⟩ := List.mem_map.mp hs
    rw [← hcast]
    refine npClip_mem z _ ps ?_
    refine div_le_self hps.le ?_
    refine Real.one_le_sqrt.mpr ?_
    have : (0 : ℝ) ≤ (((apnMusSigma obs pmu ps).1.length : ℕ) : ℝ) := Nat.cast_nonneg _
    linarith
  · exact pmu_mem_apnMusSigma obs pmu ps

/-- C5 counterexample: at `obs = []`, `prior_weight = 0.3`, `prior_mu = 0`,
`prior_sigma = 1` the normalized weights are `0/0` (numpy: `NaN`; real
model: `0`), so their sum is not within `1e-12` of 1 and the claimed
invariant fails for the empty observation vector. -/
theorem apn_invariants_fail_empty_obs :
    ¬ (|(adaptive_parzen_normal [] (3 / 10) 0 1).1.sum - 1| ≤ 1 / 10 ^ 12) := by
  have hw : (adaptive_parzen_normal [] (3 / 10) 0 1).1 = [0] := by
    simp [adaptive_parzen_normal, apnMusSigma, apnRawWeights]
  rw [hw]
  norm_num

/-- Witness for C5 at `obs = [0]`, `prior_weight = 1`, `prior_mu = 0`,
`prior_sigma = 1`. -/
theorem apn_invariants_nonempty_witness :
    ([0] : List ℝ) ≠ [] ∧ (0 : ℝ) ≤ 1 ∧ (0 : ℝ) < 1
    ∧ (|(adaptive_parzen_normal [0] 1 0 1).1.sum - 1| ≤ 1 / 10 ^ 12
       ∧ (∀ s ∈ (adaptive_parzen_normal [0] 1 0 1).2.2,
            1 / Real.sqrt ((([0] : List ℝ).length : ℝ) + 2) ≤ s ∧ s ≤ 1)
       ∧ (0 : ℝ) ∈ (adaptive_parzen_normal [0] 1 0 1).2.1) :=
  ⟨by simp, zero_le_one, one_pos,
    apn_invariants_nonempty [0] 1 0 1 (by simp) zero_le_one one_pos⟩

/-! ## Trial deduplication in `suggest1`

tpe.py lines 845-859: iterate over the trial docs; skip docs whose status
is not OK; group by `misc.get('from_tid', tid)`; `best_docs_loss.setdefault`
then `if loss <= best_docs_loss[tid]` store loss and doc.  A trial doc is
embedded as the fields the loop reads; the Python dicts `best_docs_loss`
and `best_docs` become one function from group key to an optional
`(loss, doc)` pair (the two dicts are always updated together). -/

/-- The fields of a trial doc the deduplication loop reads: `tid`,
`misc['from_tid']` (absent allowed), `result['status'] == STATUS_OK`, and
the loss `bandit.loss(...)`. -/
structure TDoc where
  tid : ℕ
  from_tid : Option ℕ
  status_ok : Bool
  loss : ℚ
deriving DecidableEq

/-- `doc['misc'].get('from_tid', doc['tid'])` (tpe.py line 851). -/
def docKey (d : TDoc) : ℕ := d.from_tid.getD d.tid

/-- One group's update: `setdefault` then `if loss <= best: store`
(tpe.py lines 853-856), restricted to a single group key. -/
def stepG (acc : Option (ℚ × TDoc)) (d : TDoc) : Option (ℚ × TDoc) :=
  match acc with
  | none => some (d.loss, d)
  | some (bl, bd) => if d.loss ≤ bl then some (d.loss, d) else some (bl, bd)

/-- One iteration of the deduplication loop (tpe.py lines 847-856) over the
joint `best_docs_loss`/`best_docs` state. -/
def dedupStep (best : ℕ → Option (ℚ × TDoc)) (d : TDoc) : ℕ → Option (ℚ × TDoc) :=
  if d.status_ok then
    match best (docKey d) with
    | none => Function.update best (docKey d) (some (d.loss, d))
    | some (bl, _) =>
        if d.loss ≤ bl then Function.update best (docKey d) (some (d.loss, d))
        else best
  else best

/-- The deduplication state after the whole loop of tpe.py lines 847-856. -/
def dedupBest (docs : List TDoc) : ℕ → Option (ℚ × TDoc) :=
  docs.foldl dedupStep (fun _ => none)

/-- Minimum of a list of losses (`none` for the empty list). -/
def listMinQ : List ℚ → Option ℚ
  | [] => none
  | a :: t => some (t.foldl min a)

/-- The docs of group `g`: OK status and `from_tid` (falling back to `tid`)
equal to `g`, in encounter order. -/
def groupDocs (docs : List TDoc) (g : ℕ) : List TDoc :=
  docs.filter (fun d => d.status_ok && (docKey d == g))

/-- The doc the spec would keep for one group: the minimum loss paired with
the last doc of the group attaining it. -/
def keptBySpec (l : List TDoc) : Option (ℚ × TDoc) :=
  match listMinQ (l.map TDoc.loss) with
  | none => none
  | some m => ((l.filter (fun d => decide (d.loss ≤ m))).getLast?).map (fun d => (m, d))

lemma dedupStep_apply (best : ℕ → Option (ℚ × TDoc)) (d : TDoc) (g : ℕ) :
    dedupStep best d g
      = if d.status_ok && (docKey d == g) then stepG (best g) d else best g := by
  unfold dedupStep stepG
  cases hok : d.status_ok with
  | false => simp
  | true =>
      simp only [Bool.true_and]
      by_cases hk : docKey d = g
      · subst hk
        cases hb : best (docKey d) with
        | none => simp [hb, Function.update_same]
        | some p =>
            obtain ⟨bl, bd⟩ := p
            by_cases hle : d.loss ≤ bl
            · simp [hb, hle, Function.update_same]
            · simp [hb, hle]
      · have hne : g ≠ docKey d := fun h => hk h.symm
        have hbeq : (docKey d == g) = false := by simp [hk]
        cases hb : best (docKey d) with
        | none => simp [hbeq, Function.update_noteq hne]
        | some p =>
            obtain ⟨bl, bd⟩ := p
            by_cases hle : d.loss ≤ bl <;>
              simp [hb, hle, hbeq, Function.update_noteq hne]

lemma dedupBest_lookup (g : ℕ) (docs : List TDoc) :
    ∀ best : ℕ → Option (ℚ × TDoc),
      (docs.foldl dedupStep best) g = (groupDocs docs g).foldl stepG (best g) := by
  induction docs with
  | nil => intro best; rfl
  | cons d t ih =>
      intro best
      simp only [List.foldl_cons, groupDocs, List.filter_cons]
      by_cases hp : (d.status_ok && (docKey d == g)) = true
      · rw [if_pos hp]
        rw [ih (dedupStep best d)]
        simp only [groupDocs, List.foldl_cons]
        rw [dedupStep_apply, if_pos hp]
      · rw [if_neg hp]
        rw [ih (dedupStep best d)]
        simp only [groupDocs]
        rw [dedupStep_apply, if_neg hp]

lemma foldl_min_mem (t : List ℚ) (a : ℚ) : t.foldl min a ∈ a :: t := by
  induction t generalizing a with
  | nil => simp
  | cons b t ih =>
      simp only [List.foldl_cons]
      rcases List.mem_cons.mp (ih (min a b)) with h | h
      · rw [h]
        rcases min_choice a b with hm | hm <;> rw [hm]
        · exact List.mem_cons_self _ _
        · exact List.mem_cons_of_mem a (List.mem_cons_self _ _)
      · exact List.mem_cons_of_mem a (List.mem_cons_of_mem b h)

lemma listMinQ_concat (xs : List ℚ) (a : ℚ) :
    listMinQ (xs ++ [a])
      = some (match listMinQ xs with | none => a | some m => min m a) := by
  cases xs with
  | nil => rfl
  | cons b t => simp [listMinQ, List.foldl_append]

lemma listMinQ_attained (l : List ℚ) (m : ℚ) (h : listMinQ l = some m) : m ∈ l := by
  cases l with
  | nil => simp [listMinQ] at h
  | cons a t =>
      simp only [listMinQ, Option.some.injEq] at h
      rw [← h]
      exact foldl_min_mem t a

lemma foldl_stepG_eq (l : List TDoc) : l.foldl stepG none = keptBySpec l := by
  induction l using List.reverseRecOn with
  | nil => rfl
  | append_singleton l d ih =>
      rw [List.foldl_append, List.foldl_cons, List.foldl_nil, ih]
      unfold keptBySpec
      rw [List.map_append, List.map_cons, List.map_nil, listMinQ_concat]
      cases hmin : listMinQ (l.map TDoc.loss) with
      | none =>
          have hl : l = [] := by
            cases l with
            | nil => rfl
            | cons b t => simp [listMinQ] at hmin
          subst hl
          simp [stepG, keptBySpec, listMinQ]
      | some m =>
          dsimp only
          have hmem : ∃ bd, (l.filter (fun e => decide (e.loss ≤ m))).getLast? = some bd := by
            have hmm : m ∈ l.map TDoc.loss := listMinQ_attained _ _ hmin
            obtain ⟨e, he, hel⟩ := List.mem_map.mp hmm
            have : e ∈ l.filter (fun e => decide (e.loss ≤ m)) := by
              rw [List.mem_filter]
              exact ⟨he, by simp [hel]⟩
            have hne : l.filter (fun e => decide (e.loss ≤ m)) ≠ [] :=
              List.ne_nil_of_mem this
            exact Option.isSome_iff_exists.mp (List.getLast?_isSome.mpr hne)
          obtain ⟨bd, hbd⟩ := hmem
          rw [hbd]
          by_cases hle : d.loss ≤ m
          · have hmm : min m d.loss = d.loss := min_eq_right hle
            rw [hmm]
            simp only [Option.map_some, stepG, hle, if_pos]
            rw [List.filter_append]
            have : List.filter (fun e => decide (e.loss ≤ d.loss)) [d] = [d] := by simp
            rw [this, List.getLast?_concat]
            simp
            intro hlt
            exact absurd hle (not_le.mpr hlt)
          · have hmm : min m d.loss = m := min_eq_left (le_of_lt (lt_of_not_le hle))
            rw [hmm]
            simp only [Option.map_some, stepG, hle, if_neg, ite_false]
            rw [List.filter_append]
            have : List.filter (fun e => decide (e.loss ≤ m)) [d] = [] := by simp [hle]
            rw [this, List.append_nil, hbd]
            simp
            intro hlem
            exact absurd hlem hle

/-- C6 (amended): the deduplication of tpe.py lines 845-859 groups OK-status
docs by `misc.from_tid` (falling back to `tid`), keeps exactly one doc per
group, the one with the lowest loss, and breaks ties between equal-loss
docs by keeping the last doc encountered (the update condition on line 854
is `loss <= best`, so a later doc whose loss equals the group minimum
replaces the earlier one). -/
theorem dedup_keeps_last_min_per_group (docs : List TDoc) (g : ℕ) :
    dedupBest docs g = keptBySpec (groupDocs docs g) := by
  unfold dedupBest
  rw [dedupBest_lookup g docs (fun _ => none)]
  exact foldl_stepG_eq (groupDocs docs g)

/-- C6 counterexample: two OK docs in group 5 with equal loss 3; the code
keeps the second one encountered (tid 2), not the first (tid 1) as the
claim states. -/
theorem dedup_tie_keeps_last_not_first :
    dedupBest [⟨1, some 5, true, 3⟩, ⟨2, some 5, true, 3⟩] 5
        = some (3, ⟨2, some 5, true, 3⟩)
    ∧ ¬ (dedupBest [⟨1, some 5, true, 3⟩, ⟨2, some 5, true, 3⟩] 5
        = some (3, ⟨1, some 5, true, 3⟩)) := by
  constructor
  · rfl
  · intro h
    have := (Option.some.injEq _ _).mp h
    simp at this

/-! ## The trial filter `ap_filter_trials`

tpe.py lines 441-468: `n_below = int(np.ceil(gamma * len(l_vals)))`,
`l_order = np.argsort(l_vals)`, keep the tids of the first `n_below`
positions (side `below_gamma`) or of the rest (side `above_gamma`), then
keep the `(tid, value)` observation pairs whose tid is in the kept set,
sort the pairs (Python tuple order: by tid, then value) and return the
values.  `np.argsort`'s tie order is unspecified; a stable insertion sort
on positions stands in for it, and no theorem depends on tie order. -/

/-- `n_below = int(np.ceil(gamma * len(l_vals)))` (tpe.py line 451). -/
def nBelow (gamma : ℚ) (nloss : ℕ) : ℕ := (⌈gamma * (nloss : ℚ)⌉ : ℤ).toNat

/-- `l_order = np.argsort(l_vals)` (tpe.py line 452) as a sort of the
positions by value. -/
def lOrder (lvals : List ℚ) : List ℕ :=
  (List.range lvals.length).insertionSort (fun i j => lvals.getD i 0 ≤ lvals.getD j 0)

/-- `keep_idxs = set(l_idxs[l_order[:n_below]])` for the below side and
`set(l_idxs[l_order[n_below:]])` for the above side (tpe.py lines 454-457),
as a list of tids (membership is what the set is used for). -/
def keepTids (lidxs : List ℕ) (lvals : List ℚ) (gamma : ℚ) (below : Bool) : List ℕ :=
  let ord := lOrder lvals
  let nb := nBelow gamma lvals.length
  if below then (ord.take nb).map (fun k => lidxs.getD k 0)
  else (ord.drop nb).map (fun k => lidxs.getD k 0)

/-- Python tuple comparison on `(tid, value)` pairs, the order
`rval_iv.sort()` (tpe.py line 466) sorts by. -/
def pairLe (a b : ℕ × ℚ) : Prop := a.1 < b.1 ∨ (a.1 = b.1 ∧ a.2 ≤ b.2)

instance : DecidableRel pairLe := fun a b => by unfold pairLe; infer_instance

instance : IsTotal (ℕ × ℚ) pairLe := by
  constructor
  intro a b
  rcases lt_trichotomy a.1 b.1 with h | h | h
  · exact Or.inl (Or.inl h)
  · rcases le_total a.2 b.2 with h2 | h2
    · exact Or.inl (Or.inr ⟨h, h2⟩)
    · exact Or.inr (Or.inr ⟨h.symm, h2⟩)
  · exact Or.inr (Or.inl h)

instance : IsTrans (ℕ × ℚ) pairLe := by
  constructor
  rintro a b c (hab | ⟨hab, hab2⟩) (hbc | ⟨hbc, hbc2⟩)
  · exact Or.inl (lt_trans hab hbc)
  · exact Or.inl (hbc ▸ hab)
  · exact Or.inl (hab ▸ hbc)
  · exact Or.inr ⟨hab.trans hbc, hab2.trans hbc2⟩

/-- `rval_iv = [(i, v) for i, v in zip(o_idxs, o_vals) if i in keep_idxs]`
followed by `rval_iv.sort()` (tpe.py lines 465-466). -/
def keptPairs (oidxs : List ℕ) (ovals : List ℚ) (lidxs : List ℕ) (lvals : List ℚ)
    (gamma : ℚ) (below : Bool) : List (ℕ × ℚ) :=
  ((oidxs.zip ovals).filter
      (fun p => decide (p.1 ∈ keepTids lidxs lvals gamma below))).insertionSort pairLe

/-- `ap_filter_trials` (tpe.py lines 441-468): the kept values in ascending
order of their tid. -/
def ap_filter_trials (oidxs : List ℕ) (ovals : List ℚ) (lidxs : List ℕ) (lvals : List ℚ)
    (gamma : ℚ) (below : Bool) : List ℚ :=
  (keptPairs oidxs ovals lidxs lvals gamma below).map Prod.snd

lemma nBelow_le (gamma : ℚ) (N : ℕ) (h1 : gamma ≤ 1) : nBelow gamma N ≤ N := by
  unfold nBelow
  have hceil : ⌈gamma * (N : ℚ)⌉ ≤ (N : ℤ) := by
    rw [Int.ceil_le]
    push_cast
    exact mul_le_of_le_one_left (Nat.cast_nonneg N) h1
  omega

lemma lOrder_perm (lvals : List ℚ) : (lOrder lvals).Perm (List.range lvals.length) :=
  List.perm_insertionSort _ _

lemma lOrder_nodup (lvals : List ℚ) : (lOrder lvals).Nodup :=
  ((lOrder_perm lvals).nodup_iff).mpr (List.nodup_range _)

lemma lOrder_length (lvals : List ℚ) : (lOrder lvals).length = lvals.length :=
  (lOrder_perm lvals).length_eq.trans (List.length_range _)

lemma lOrder_mem_lt (lvals : List ℚ) (k : ℕ) (hk : k ∈ lOrder lvals) : k < lvals.length :=
  List.mem_range.mp ((lOrder_perm lvals).mem_iff.mp hk)

/-- C7: with `N` loss values carrying distinct tids and `gamma < 1`, the
filter of tpe.py lines 441-468 puts exactly `ceil(gamma * N)` tids in the
below set and `N - ceil(gamma * N)` in the above set, the two tid sets are
disjoint, and the values either side returns come sorted by ascending
original tid (the pairs are sorted in Python tuple order, tid first). -/
theorem ap_filter_split (oidxs : List ℕ) (ovals : List ℚ) (lidxs : List ℕ) (lvals : List ℚ)
    (gamma : ℚ) (hnd : lidxs.Nodup) (hlen : lidxs.length = lvals.length)
    (h0 : 0 < gamma) (h1 : gamma < 1) :
    (keepTids lidxs lvals gamma true).length = nBelow gamma lvals.length
    ∧ (keepTids lidxs lvals gamma false).length = lvals.length - nBelow gamma lvals.length
    ∧ (keepTids lidxs lvals gamma true).Nodup
    ∧ (keepTids lidxs lvals gamma false).Nodup
    ∧ (keepTids lidxs lvals gamma true).Disjoint (keepTids lidxs lvals gamma false)
    ∧ (∀ below : Bool,
        ap_filter_trials oidxs ovals lidxs lvals gamma below
          = (keptPairs oidxs ovals lidxs lvals gamma below).map Prod.snd
        ∧ List.Sorted (fun a b => a ≤ b)
            ((keptPairs oidxs ovals lidxs lvals gamma below).map Prod.fst)) := by
  have hnb : nBelow gamma lvals.length ≤ lvals.length :=
    nBelow_le gamma lvals.length (le_of_lt h1)
  have hordlen : (lOrder lvals).length = lvals.length := lOrder_length lvals
  have hordnd := lOrder_nodup lvals
  have hf : ∀ k1, k1 < lvals.length → ∀ k2, k2 < lvals.length →
      lidxs.getD k1 0 = lidxs.getD k2 0 → k1 = k2 := by
    intro k1 hk1 k2 hk2 heq
    have hk1l : k1 < lidxs.length := by rw [hlen]; exact hk1
    have hk2l : k2 < lidxs.length := by rw [hlen]; exact hk2
    rw [List.getD_eq_getElem lidxs 0 hk1l, List.getD_eq_getElem lidxs 0 hk2l] at heq
    have hinj := List.nodup_iff_injective_get.mp hnd
    have hget : lidxs.get ⟨k1, hk1l⟩ = lidxs.get ⟨k2, hk2l⟩ := by
      simpa [List.get_eq_getElem] using heq
    have := @hinj ⟨k1, hk1l⟩ ⟨k2, hk2l⟩ hget
    exact congrArg Fin.val this
  have hmemtake : ∀ k ∈ (lOrder lvals).take (nBelow gamma lvals.length), k < lvals.length :=
    fun k hk => lOrder_mem_lt lvals k (List.mem_of_mem_take hk)
  have hmemdrop : ∀ k ∈ (lOrder lvals).drop (nBelow gamma lvals.length), k < lvals.length :=
    fun k hk => lOrder_mem_lt lvals k (List.mem_of_mem_drop hk)
  refine ⟨?_, ?_, ?_, ?_, ?_, ?_⟩
  · simp only [keepTids, if_true, List.length_map, List.length_take, hordlen]
    exact min_eq_left hnb
  · simp only [keepTids, Bool.false_eq_true, if_false, List.length_map, List.length_drop,
      hordlen]
  · simp only [keepTids, if_true]
    refine List.Nodup.map_on ?_ (((lOrder lvals).take_sublist _).nodup hordnd)
    intro x hx y hy hxy
    exact hf x (hmemtake x hx) y (hmemtake y hy) hxy
  · simp only [keepTids, Bool.false_eq_true, if_false]
    refine List.Nodup.map_on ?_ (((lOrder lvals).drop_sublist _).nodup hordnd)
    intro x hx y hy hxy
    exact hf x (hmemdrop x hx) y (hmemdrop y hy) hxy
  · simp only [keepTids, if_true, Bool.false_eq_true, if_false]
    intro a ha hb
    obtain ⟨k1, hk1, rfl⟩ := List.mem_map.mp ha
    obtain ⟨k2, hk2, heq⟩ := List.mem_map.mp hb
    have hkk : k2 = k1 := hf k2 (hmemdrop k2 hk2) k1 (hmemtake k1 hk1) heq
    subst hkk
    exact List.disjoint_take_drop hordnd (le_refl (nBelow gamma lvals.length)) hk1 hk2
  · intro below
    refine ⟨rfl, ?_⟩
    have hs : List.Sorted pairLe (keptPairs oidxs ovals lidxs lvals gamma below) :=
      List.sorted_insertionSort pairLe _
    exact List.Pairwise.map Prod.fst
      (fun a b hab => by
        rcases hab with h | ⟨h, _⟩
        · exact le_of_lt h
        · exact le_of_eq h) hs

/-- Witness for C7 at `l_idxs = [10, 11, 12]`, `l_vals = [3, 1, 2]`,
`gamma = 1/2` (so `n_below = 2`), `o_idxs = [10, 11, 12]`,
`o_vals = [5, 6, 7]`. -/
theorem ap_filter_split_witness :
    ([10, 11, 12] : List ℕ).Nodup ∧ ([10, 11, 12] : List ℕ).length = ([3, 1, 2] : List ℚ).length
    ∧ (0 : ℚ) < 1 / 2 ∧ (1 : ℚ) / 2 < 1
    ∧ ((keepTids [10, 11, 12] [3, 1, 2] (1 / 2) true).length
          = nBelow (1 / 2) ([3, 1, 2] : List ℚ).length
        ∧ (keepTids [10, 11, 12] [3, 1, 2] (1 / 2) false).length
          = ([3, 1, 2] : List ℚ).length - nBelow (1 / 2) ([3, 1, 2] : List ℚ).length
        ∧ (keepTids [10, 11, 12] [3, 1, 2] (1 / 2) true).Nodup
        ∧ (keepTids [10, 11, 12] [3, 1, 2] (1 / 2) false).Nodup
        ∧ (keepTids [10, 11, 12] [3, 1, 2] (1 / 2) true).Disjoint
            (keepTids [10, 11, 12] [3, 1, 2] (1 / 2) false)
        ∧ (∀ below : Bool,
            ap_filter_trials [10, 11, 12] [5, 6, 7] [10, 11, 12] [3, 1, 2] (1 / 2) below
              = (keptPairs [10, 11, 12] [5, 6, 7] [10, 11, 12] [3, 1, 2] (1 / 2) below).map
                  Prod.snd
            ∧ List.Sorted (fun a b => a ≤ b)
                ((keptPairs [10, 11, 12] [5, 6, 7] [10, 11, 12] [3, 1, 2]
                    (1 / 2) below).map Prod.fst))) :=
  ⟨by decide, rfl, by norm_num, by norm_num,
    ap_filter_split [10, 11, 12] [5, 6, 7] [10, 11, 12] [3, 1, 2] (1 / 2)
      (by decide) rfl (by norm_num) (by norm_num)⟩

/-! ## Bound handling in `TreeParzenEstimator.refine_no_grad`

tpe.py lines 669-822.  The method assembles, per coordinate to optimize, a
lower bound, an upper bound and a quantization level (lines 688-738), checks
the drawn candidate against the bounds and raises
`ValueError('sampler did not respect lbound'/'ubound')` when violated
(lines 740-752), runs Powell, and writes the (snapped) result back into the
evaluation memo only when the optimizer's output respects every bound,
returning the memo unchanged otherwise (lines 796-822).  The memo is
embedded as an association list from node id to value vector (each entry
holds one value, as the source asserts `nv == 1`). -/

/-- `any(pti < lbi for pti, lbi in zip(vals, lbounds) if lbi is not None)`
(tpe.py lines 743 and 797). -/
def violatesLB (vals : List ℚ) (lb : List (Option ℚ)) : Bool :=
  (vals.zip lb).any (fun p => match p.2 with | none => false | some b => decide (p.1 < b))

/-- `any(pti > ubi for pti, ubi in zip(vals, ubounds) if ubi is not None)`
(tpe.py lines 749 and 802). -/
def violatesUB (vals : List ℚ) (ub : List (Option ℚ)) : Bool :=
  (vals.zip ub).any (fun p => match p.2 with | none => false | some b => decide (b < p.1))

/-- The final snapping `pti if qi is None else np.ceil(pti / qi) * qi`
(tpe.py lines 808-809). -/
def snapQ (q : Option ℚ) (x : ℚ) : ℚ :=
  match q with
  | none => x
  | some qq => (⌈x / qq⌉ : ℤ) * qq

/-- The write-back loop of tpe.py lines 813-821: the memo entry of each
optimized node id receives the snapped coordinate at that id's position in
`nids_to_optimize`; all other entries stay. -/
def refineWriteback (memo : List (ℕ × List ℚ)) (nids : List ℕ) (found : List ℚ)
    (qs : List (Option ℚ)) : List (ℕ × List ℚ) :=
  memo.map (fun kv =>
    match nids.findIdx? (fun k => k == kv.1) with
    | some i => (kv.1, [snapQ (qs.getD i none) (found.getD i 0)])
    | none => kv)

/-- The tail of `refine_no_grad` (tpe.py lines 796-822): if the optimizer's
output violates a lower or an upper bound, return the memo unchanged;
otherwise snap and write the refined values back. -/
def refinePost (memo : List (ℕ × List ℚ)) (nids : List ℕ) (found : List ℚ)
    (lb ub qs : List (Option ℚ)) : List (ℕ × List ℚ) :=
  if violatesLB found lb then memo
  else if violatesUB found ub then memo
  else refineWriteback memo nids found qs

/-- The four families of the `elif dist in ('normal', 'qnormal', 'lognormal',
'qlognormal')` branch of tpe.py lines 715-724.  (The uniform families of
lines 694-714 take their bounds from the prior node itself and are checked
through the same assembled lists.) -/
inductive NormalFam where
  | normal | qnormal | lognormal | qlognormal
deriving DecidableEq

/-- `MEDIUM = 1e4`, the default refinement half-width (tpe.py line 669). -/
def MEDIUM : ℚ := 10 ^ 4

/-- The lower refinement bound of tpe.py lines 719-723: `1e-12` for the log
families, `-MEDIUM` otherwise. -/
def refineLBound : NormalFam → ℚ
  | NormalFam.normal | NormalFam.qnormal => -MEDIUM
  | NormalFam.lognormal | NormalFam.qlognormal => 1 / 10 ^ 12

/-- The upper refinement bound of tpe.py lines 721-724: `MEDIUM` for all
four normal families. -/
def refineUBound : NormalFam → ℚ := fun _ => MEDIUM

/-- The pre-optimization candidate check of tpe.py lines 740-752: raise
`ValueError` (which aborts the whole `suggest` call) when any coordinate is
below its lower bound or above its upper bound. -/
def precheck (allVals : List ℚ) (lb ub : List (Option ℚ)) : Except String Unit :=
  if violatesLB allVals lb then Except.error "sampler did not respect lbound"
  else if violatesUB allVals ub then Except.error "sampler did not respect ubound"
  else Except.ok ()

/-- C9: if the point Powell returns violates any coordinate bound,
`refine_no_grad` returns the evaluation memo unchanged (so the suggestion
stays the pre-refinement candidate drawn from the below posterior); the
snapped refined values are written into the memo only when every coordinate
respects its bounds, and then every optimized node's entry receives its
snapped coordinate (tpe.py lines 796-822). -/
theorem refine_bound_fallback (memo : List (ℕ × List ℚ)) (nids : List ℕ) (found : List ℚ)
    (lb ub qs : List (Option ℚ)) :
    (violatesLB found lb = true ∨ violatesUB found ub = true →
        refinePost memo nids found lb ub qs = memo)
    ∧ (violatesLB found lb = false → violatesUB found ub = false →
        refinePost memo nids found lb ub qs = refineWriteback memo nids found qs)
    ∧ (violatesLB found lb = false → violatesUB found ub = false →
        ∀ nid i, nids.findIdx? (fun k => k == nid) = some i →
          ∀ v, (nid, v) ∈ memo →
            (nid, [snapQ (qs.getD i none) (found.getD i 0)])
              ∈ refinePost memo nids found lb ub qs) := by
  refine ⟨?_, ?_, ?_⟩
  · rintro (h | h) <;> simp [refinePost, h]
  · intro h1 h2
    simp [refinePost, h1, h2]
  · intro h1 h2 nid i hidx v hv
    have hpost : refinePost memo nids found lb ub qs = refineWriteback memo nids found qs := by
      simp [refinePost, h1, h2]
    rw [hpost]
    refine List.mem_map.mpr ⟨(nid, v), hv, ?_⟩
    simp [hidx]

/-- C10: the candidate check of tpe.py lines 740-752 rejects, with a
`ValueError` that aborts the `suggest` call, any to-be-refined coordinate
outside its assembled bounds; in particular a `normal`/`qnormal` draw of
absolute value above `1e4` and a `lognormal` draw below `1e-12` are rejected
rather than refined. -/
theorem refine_precheck_rejects (vals : List ℚ) (lb ub : List (Option ℚ)) :
    (violatesLB vals lb = true ∨ violatesUB vals ub = true →
        ∃ msg, precheck vals lb ub = Except.error msg)
    ∧ (∀ x : ℚ, MEDIUM < |x| →
        ∃ msg, precheck [x] [some (refineLBound NormalFam.normal)]
            [some (refineUBound NormalFam.normal)] = Except.error msg)
    ∧ (∀ x : ℚ, x < refineLBound NormalFam.lognormal →
        ∃ msg, precheck [x] [some (refineLBound NormalFam.lognormal)]
            [some (refineUBound NormalFam.lognormal)] = Except.error msg) := by
  refine ⟨?_, ?_, ?_⟩
  · intro h
    by_cases hlb : violatesLB vals lb = true
    · exact ⟨"sampler did not respect lbound", by simp [precheck, hlb]⟩
    · have hub : violatesUB vals ub = true := by
        rcases h with h | h
        · exact absurd h hlb
        · exact h
      have hlbf : violatesLB vals lb = false := by
        cases hb : violatesLB vals lb
        · rfl
        · exact absurd hb hlb
      refine ⟨"sampler did not respect ubound", ?_⟩
      simp [precheck, hub, hlbf]
  · intro x hx
    have hM : (0 : ℚ) < MEDIUM := by norm_num [MEDIUM]
    rcases lt_abs.mp hx with hpos | hneg
    · have hnlb : ¬ (x < -MEDIUM) := by linarith
      refine ⟨"sampler did not respect ubound", ?_⟩
      simp only [precheck, violatesLB, violatesUB, refineLBound, refineUBound,
        List.zip_cons_cons, List.zip_nil_right, List.any_cons, List.any_nil]
      simp [hnlb, hpos]
    · have hlt : x < -MEDIUM := by linarith
      refine ⟨"sampler did not respect lbound", ?_⟩
      simp only [precheck, violatesLB, refineLBound, List.zip_cons_cons,
        List.zip_nil_right, List.any_cons, List.any_nil]
      simp [hlt]
  · intro x hx
    refine ⟨"sampler did not respect lbound", ?_⟩
    simp only [precheck, violatesLB, List.zip_cons_cons, List.zip_nil_right,
      List.any_cons, List.any_nil]
    simp [hx]

/-- Witness for C10: a `normal` draw `x = 20000` (absolute value above
`1e4`) is rejected by the pre-check. -/
theorem refine_precheck_rejects_witness :
    MEDIUM < |(20000 : ℚ)|
    ∧ ∃ msg, precheck [(20000 : ℚ)] [some (refineLBound NormalFam.normal)]
        [some (refineUBound NormalFam.normal)] = Except.error msg :=
  ⟨by norm_num [MEDIUM],
    (refine_precheck_rejects [] [] []).2.1 20000 (by norm_num [MEDIUM])⟩

/-! ## `LGMM1_lpdf` and its truncation normalization

tpe.py lines 228-259: the log-density of the truncated mixture of
log-normals, for a single sample.  `scipy.special.erf` is embedded by its
defining integral.  The source computes `p_accept` whenever `low`/`high`
are given (the callers always pass both or neither; one-sided truncation is
unreachable, line 200 `TODO`), but in the `q is None` branch the returned
value never uses it. -/

noncomputable section

/-- `scipy.special.erf`: `erf x = 2/sqrt(pi) * Integral_0^x exp(-t^2) dt`. -/
def erf (x : ℝ) : ℝ := 2 / Real.sqrt Real.pi * ∫ t in (0 : ℝ)..x, Real.exp (-(t ^ 2))

/-- `normal_cdf` (tpe.py lines 94-99): `0.5 * (1 + erf((x-mu) / max(sqrt 2 * sigma, EPS)))`. -/
def normal_cdf (x mu sigma : ℝ) : ℝ :=
  (1 / 2) * (1 + erf ((x - mu) / max (Real.sqrt 2 * sigma) EPS))

/-- `lognormal_lpdf` (tpe.py lines 160-169) with the silent clamp of sigma
to `EPS`; the `assert sigma >= 0` is not modeled. -/
def lognormal_lpdf (x mu sigma : ℝ) : ℝ :=
  -((1 / 2) * ((Real.log x - mu) / max sigma EPS) ^ 2)
    - Real.log (max sigma EPS * x * Real.sqrt (2 * Real.pi))

/-- `lognormal_cdf` (tpe.py lines 138-157) for one nonnegative sample:
`0.5 + 0.5 * erf((log(max(x, EPS)) - mu) / max(sqrt 2 * sigma, EPS))`. -/
def lognormal_cdf (x mu sigma : ℝ) : ℝ :=
  (1 / 2) + (1 / 2) * erf ((Real.log (max x EPS) - mu) / max (Real.sqrt 2 * sigma) EPS)

/-- The row maximum used by `logsum_rows` (tpe.py lines 222-225); rows are
nonempty in every call. -/
def rowMax : List ℝ → ℝ
  | [] => 0
  | a :: t => t.foldl max a

/-- One row of `logsum_rows` (tpe.py lines 222-225):
`log(sum(exp(x - max))) + max`. -/
def logsum_rows (xs : List ℝ) : ℝ :=
  Real.log ((xs.map (fun v => Real.exp (v - rowMax xs))).sum) + rowMax xs

/-- The truncation acceptance mass `p_accept` of `LGMM1_lpdf` (tpe.py lines
242-245): `sum(weights * (normal_cdf(high, mus, sigmas) -
normal_cdf(low, mus, sigmas)))`. -/
def lgmm1PAccept (weights mus sigmas : List ℝ) (low high : ℝ) : ℝ :=
  ((weights.zip (mus.zip sigmas)).map
    (fun p => p.1 * (normal_cdf high p.2.1 p.2.2 - normal_cdf low p.2.1 p.2.2))).sum

/-- `LGMM1_lpdf` (tpe.py lines 228-259) at a single sample `x`:
`p_accept` is computed when truncation bounds are given, the `q is None`
branch returns `logsum_rows(lognormal_lpdf(x, mus, sigmas) + log(weights))`
without it, and the quantized branch returns the interval mass with
`- log(p_accept)`. -/
def LGMM1_lpdf (x : ℝ) (weights mus sigmas : List ℝ) (low high : Option ℝ) (q : Option ℝ) : ℝ :=
  let pAccept : ℝ :=
    match low, high with
    | some lo, some hi => lgmm1PAccept weights mus sigmas lo hi
    | _, _ => 1
  match q with
  | none =>
      logsum_rows ((weights.zip (mus.zip sigmas)).map
        (fun p => lognormal_lpdf x p.2.1 p.2.2 + Real.log p.1))
  | some qq =>
      Real.log (((weights.zip (mus.zip sigmas)).map
        (fun p => p.1 * (lognormal_cdf x p.2.1 p.2.2
          - lognormal_cdf (x - qq) p.2.1 p.2.2))).sum)
        - Real.log pAccept

end

/-! ### Bounds on `erf` -/

lemma exp_neg_sq_continuous : Continuous (fun t : ℝ => Real.exp (-(t ^ 2))) :=
  Real.continuous_exp.comp ((continuous_pow 2).neg)

lemma erf_neg (x : ℝ) : erf (-x) = -erf x := by
  unfold erf
  have h1 : ∫ u in (0 : ℝ)..x, Real.exp (-(u ^ 2))
      = ∫ u in (-x)..(0 : ℝ), Real.exp (-(u ^ 2)) := by
    have h := @intervalIntegral.integral_comp_neg ℝ _ _ 0 x (fun u => Real.exp (-(u ^ 2)))
    simp only [neg_zero, neg_sq] at h
    exact h
  have h2 : ∫ u in (0 : ℝ)..(-x), Real.exp (-(u ^ 2))
      = -∫ u in (-x)..(0 : ℝ), Real.exp (-(u ^ 2)) :=
    intervalIntegral.integral_symm (-x) 0
  rw [h2, ← h1]
  ring

lemma integral_exp_neg_sq_pos (c : ℝ) (hc : 0 < c) :
    0 < ∫ t in (0 : ℝ)..c, Real.exp (-(t ^ 2)) := by
  apply intervalIntegral.intervalIntegral_pos_of_pos_on
  · exact exp_neg_sq_continuous.intervalIntegrable 0 c
  · intro t _
    exact Real.exp_pos _
  · exact hc

lemma integral_exp_neg_sq_le (c : ℝ) (hc : 0 ≤ c) :
    (∫ t in (0 : ℝ)..c, Real.exp (-(t ^ 2))) ≤ c := by
  have hf : IntervalIntegrable (fun t : ℝ => Real.exp (-(t ^ 2))) MeasureTheory.volume 0 c :=
    exp_neg_sq_continuous.intervalIntegrable 0 c
  have hg : IntervalIntegrable (fun _ : ℝ => (1 : ℝ)) MeasureTheory.volume 0 c :=
    intervalIntegrable_const
  have h := intervalIntegral.integral_mono_on hc hf hg
    (fun t _ => Real.exp_le_one_iff.mpr (by nlinarith [sq_nonneg t]))
  simpa using h

lemma erf_pos (c : ℝ) (hc : 0 < c) : 0 < erf c := by
  unfold erf
  apply mul_pos
  · exact div_pos two_pos (Real.sqrt_pos.mpr Real.pi_pos)
  · exact integral_exp_neg_sq_pos c hc

lemma erf_le_linear (c : ℝ) (hc : 0 ≤ c) : erf c ≤ 2 / Real.sqrt Real.pi * c := by
  unfold erf
  apply mul_le_mul_of_nonneg_left (integral_exp_neg_sq_le c hc)
  positivity

lemma erf_inv_sqrt_two_lt_one : erf (1 / Real.sqrt 2) < 1 := by
  have h2 : (0 : ℝ) < Real.sqrt 2 := Real.sqrt_pos.mpr two_pos
  have hpi : (0 : ℝ) < Real.sqrt Real.pi := Real.sqrt_pos.mpr Real.pi_pos
  have hle := erf_le_linear (1 / Real.sqrt 2) (by positivity)
  have hmul : Real.sqrt Real.pi * Real.sqrt 2 = Real.sqrt (2 * Real.pi) := by
    rw [← Real.sqrt_mul Real.pi_pos.le 2, mul_comm]
  have hgt : (2 : ℝ) < Real.sqrt (2 * Real.pi) := by
    rw [show (2 : ℝ) < Real.sqrt (2 * Real.pi) ↔ (2 : ℝ) ^ 2 < 2 * Real.pi from
      Real.lt_sqrt (by norm_num)]
    have := Real.pi_gt_three
    nlinarith
  have hlt : 2 / Real.sqrt Real.pi * (1 / Real.sqrt 2) < 1 := by
    rw [div_mul_div_comm, div_lt_one (by positivity), mul_one, hmul]
    exact hgt
  linarith

lemma max_sqrt_two_eps : max (Real.sqrt 2 * 1) EPS = Real.sqrt 2 := by
  rw [mul_one]
  apply max_eq_left
  have h1 : (1 : ℝ) ≤ Real.sqrt 2 := Real.one_le_sqrt.mpr one_le_two
  have h2 : EPS ≤ 1 := by norm_num [EPS]
  linarith

lemma lgmm1PAccept_single : lgmm1PAccept [1] [0] [1] (-1) 1 = erf (1 / Real.sqrt 2) := by
  simp only [lgmm1PAccept, List.zip_cons_cons, List.zip_nil_right, List.map_cons,
    List.map_nil, List.sum_cons, List.sum_nil, normal_cdf, max_sqrt_two_eps]
  rw [show ((1 : ℝ) - 0) = 1 by ring, show ((-1 : ℝ) - 0) = -1 by ring, neg_div, erf_neg]
  ring

/-- C8: in the `q is None` branch, `LGMM1_lpdf` (tpe.py lines 247-250)
returns the unnormalized mixture log-density: the `p_accept` it computed
for the truncation bounds is never subtracted, so the truncated call equals
the untruncated one and differs from the claimed
`untruncated - log(p_accept)`, because at `weights = [1]`, `mus = [0]`,
`sigmas = [1]`, `low = -1`, `high = 1` the acceptance mass is
`erf(1/sqrt 2)`, strictly between 0 and 1, so its log is negative.
(The `q is not None` branch does subtract `log(p_accept)`, line 257.) -/
theorem lgmm1_lpdf_cont_skips_p_accept :
    LGMM1_lpdf 1 [1] [0] [1] (some (-1)) (some 1) none
      = LGMM1_lpdf 1 [1] [0] [1] none none none
    ∧ 0 < lgmm1PAccept [1] [0] [1] (-1) 1
    ∧ lgmm1PAccept [1] [0] [1] (-1) 1 < 1
    ∧ LGMM1_lpdf 1 [1] [0] [1] (some (-1)) (some 1) none
      ≠ LGMM1_lpdf 1 [1] [0] [1] none none none
          - Real.log (lgmm1PAccept [1] [0] [1] (-1) 1) := by
  have hpos : 0 < lgmm1PAccept [1] [0] [1] (-1) 1 := by
    rw [lgmm1PAccept_single]
    exact erf_pos _ (by positivity)
  have hlt : lgmm1PAccept [1] [0] [1] (-1) 1 < 1 := by
    rw [lgmm1PAccept_single]
    exact erf_inv_sqrt_two_lt_one
  have hlogneg : Real.log (lgmm1PAccept [1] [0] [1] (-1) 1) < 0 := Real.log_neg hpos hlt
  refine ⟨rfl, hpos, hlt, ?_⟩
  intro h
  have : Real.log (lgmm1PAccept [1] [0] [1] (-1) 1) = 0 := by
    have h2 := h
    rw [show LGMM1_lpdf 1 [1] [0] [1] (some (-1)) (some 1) none
        = LGMM1_lpdf 1 [1] [0] [1] none none none from rfl] at h2
    linarith
  linarith

end Tpe
